import Mathlib

/-!
Shallow embedding of the rogue-scroll generation engine.

The repository ships two near-identical variants of the same module:
`src/rogue_scroll/scroll.py` (classmethod interface, four integer
parameters) and `src/rogue_scroll/main.py` (MinMax named tuples plus the
CLI).  Both are embedded below; definitions carrying no variant suffix
follow `main.py`, definitions suffixed `_scroll` follow `scroll.py`.
Randomness (`secrets.randbelow`) is modelled by an explicit tape of
natural numbers read left to right; Python exceptions are modelled by
`Except`.
-/

set_option maxRecDepth 8000

namespace RogueScroll

/-- Python exceptions that the embedded code can raise:
`ValueError` (from `secrets.randbelow` on a non-positive bound) and
`AssertionError` (from a failing `assert`). -/
inductive PyError where
  | valueError : PyError
  | assertionError : PyError
deriving DecidableEq

/-- A deterministic random tape together with the position of the next
draw.  `secrets.randbelow` reads successive tape entries. -/
structure RState where
  tape : Nat → Nat
  pos : Nat

/-- Embeds `secrets.randbelow(n)`: a uniform integer in `[0, n)`, raising
`ValueError` when `n <= 0`.  A draw reads the next tape entry and reduces
it modulo `n`, so every tape yields an in-range value and each value of
`[0, n)` is hit by exactly one tape entry among `0, ..., n-1`. -/
def randbelow (n : Int) (s : RState) : Except PyError (Int × RState) :=
  if n ≤ 0 then .error .valueError
  else .ok (((s.tape s.pos % n.toNat : Nat) : Int), ⟨s.tape, s.pos + 1⟩)

/-- Embeds the `MinMax` named tuple of `main.py`: an inclusive integer
interval. -/
structure MinMax where
  min : Int
  max : Int
deriving DecidableEq

/-- Embeds `rand_in_range` of `main.py`: uniform in `[r.min, r.max]`;
when the difference is zero the minimum is returned without drawing. -/
def rand_in_range (r : MinMax) (s : RState) : Except PyError (Int × RState) :=
  let diff := r.max - r.min
  if diff = 0 then .ok (r.min, s)
  else
    match randbelow (diff + 1) s with
    | .error e => .error e
    | .ok (d, s₁) => .ok (d + r.min, s₁)

/-- Embeds `Scroll.SYLLABLES` (identical in both variants): the ordered
syllable catalog, duplicates kept ("nes" appears twice). -/
def SYLLABLES : List String := [
  "a", "ab", "ag", "aks", "ala", "an", "app", "arg", "arze", "ash", "bek",
  "bie", "bit", "bjor", "blu", "bot", "bu", "byt", "comp", "con", "cos",
  "cre", "dalf", "dan", "den", "do", "e", "eep", "el", "eng", "er", "ere",
  "erk", "esh", "evs", "fa", "fid", "fri", "fu", "gan", "gar", "glen", "gop",
  "gre", "ha", "hyd", "i", "ing", "ip", "ish", "it", "ite", "iv", "jo",
  "kho", "kli", "klis", "la", "lech", "mar", "me", "mi", "mic", "mik",
  "mon", "mung", "mur", "nej", "nelg", "nep", "ner", "nes", "nes", "nih",
  "nin", "o", "od", "ood", "org", "orn", "ox", "oxy", "pay", "ple", "plu",
  "po", "pot", "prok", "re", "rea", "rhov", "ri", "ro", "rog", "rok",
  "rol", "sa", "san", "sat", "sef", "seh", "shu", "ski", "sna", "sne",
  "snik", "sno", "so", "sol", "sri", "sta", "sun", "ta", "tab", "tem",
  "ther", "ti", "tox", "trol", "tue", "turs", "u", "ulk", "um", "un", "uni",
  "ur", "val", "viv", "vly", "vom", "wah", "wed", "werg", "wex", "whon",
  "wun", "xo", "y", "yot", "yu", "zant", "zeb", "zim", "zok", "zon", "zum"]

/-- Embeds `Scroll.SCROLLS` (identical in both variants): the ordered
mapping from scroll kind to its weight, in dict insertion order. -/
def SCROLLS : List (String × Int) := [
  ("monster confusion", 7),
  ("magic mapping", 4),
  ("hold monster", 2),
  ("sleep", 3),
  ("enchant armor", 7),
  ("identify potion", 10),
  ("identify scroll", 10),
  ("identify weapon", 6),
  ("identify armor", 7),
  ("identify ring, wand or staff", 10),
  ("scare monster", 3),
  ("food detection", 2),
  ("teleportation", 5),
  ("enchant weapon", 8),
  ("create monster", 4),
  ("remove curse", 7),
  ("aggravate monsters", 3),
  ("protect armor", 2)]

/-- Embeds `itertools.accumulate` on integers:
`accumulate [a, b, c] = [a, a + b, a + b + c]`. -/
def accumulate : List Int → List Int
  | [] => []
  | x :: xs => x :: (accumulate xs).map (fun y => x + y)

/-- Embeds `Scroll.cumulative` (identical in both variants): the running
prefix sums of the weights, with the first prefix value popped off and
subtracted from each remaining entry. -/
def cumulative : List Int :=
  match accumulate (SCROLLS.map Prod.snd) with
  | [] => []
  | base :: rest => rest.map (fun x => x - base)

/-- Embeds `Scroll._max_prob = sum(cls.SCROLLS.values())`. -/
def max_prob : Int := (SCROLLS.map Prod.snd).sum

/-- Fuelled binary search mirroring the loop of Python `bisect.bisect`
(alias of `bisect_right`): `lo`/`hi` bracket the search, `mid` is the
floor midpoint, and the left half is kept exactly when the probe is
strictly smaller than the element at `mid`.  The fuel only bounds the
iteration count (each step strictly shrinks `hi - lo`, so any fuel at
least `hi - lo` is enough). -/
def bisectGo (l : List Int) (x : Int) : Nat → Nat → Nat → Nat
  | 0, lo, _ => lo
  | fuel + 1, lo, hi =>
    if lo < hi then
      let mid := (lo + hi) / 2
      if x < l.getD mid 0 then bisectGo l x fuel lo mid
      else bisectGo l x fuel (mid + 1) hi
    else lo

/-- Embeds `bisect.bisect(l, x)`. -/
def bisect (l : List Int) (x : Int) : Nat :=
  bisectGo l x (l.length + 1) 0 l.length

/-- Embeds `Scroll.choose` (identical in both variants): asserts the
breakpoint-table length, draws `score = randbelow(max_prob) + 1`, and
indexes the kind names by `bisect(breakpoints, score)`. -/
def choose (s : RState) : Except PyError (String × RState) :=
  let breakpoints := cumulative
  let scroll_types := SCROLLS.map Prod.fst
  if breakpoints.length = scroll_types.length - 1 then
    match randbelow max_prob s with
    | .error e => .error e
    | .ok (d, s₁) =>
      let score := d + 1
      let i := bisect breakpoints score
      .ok (scroll_types.getD i "", s₁)
  else .error .assertionError

/-- Derived observable for the weighted sampler: the number of score
values in `[1, max_prob]` that `bisect` maps to kind index `i`. -/
def bucketWidth (i : Nat) : Nat :=
  ((Finset.Icc (1 : Int) max_prob).filter (fun score => bisect cumulative score = i)).card

/-- The two `ValueError` conditions of `count_possibilities`, told apart
by their messages in the source. -/
inductive CPError where
  | invalidRange : CPError
  | invalidBase : CPError
deriving DecidableEq

/-- Embeds Python `range(lo, hi + 1)` as a list of integers. -/
def intRange (lo hi : Int) : List Int :=
  (List.range (hi + 1 - lo).toNat).map (fun k : Nat => lo + (k : Int))

/-- Embeds the module-level `count_possibilities` (scroll.py checks
`min > max` directly, main.py checks the equivalent `is_min_max`): the
range check, then the base check, then the accumulating loop
`total += n ** length`.  Exponents are modelled as natural numbers
(`toNat`); for a negative exponent Python would leave the integers and
produce a float, which is outside this integer embedding (no caller in
the repository and no theorem below uses a negative bound). -/
def count_possibilities (n mn mx : Int) : Except CPError Int :=
  if mn > mx then .error .invalidRange
  else if n < 1 then .error .invalidBase
  else .ok ((intRange mn mx).foldl (fun total length => total + n ^ length.toNat) 0)

/-- Embeds `Scroll.entropy` (identical in both variants up to the MinMax
packaging): composes `count_possibilities` and takes `math.log2`,
idealised as the exact real `Real.logb 2`. -/
noncomputable def entropy (min_syllables max_syllables min_words max_words : Int) :
    Except CPError Real :=
  match count_possibilities (SYLLABLES.length : Int) min_syllables max_syllables with
  | .error e => .error e
  | .ok words =>
    match count_possibilities words min_words max_words with
    | .error e => .error e
    | .ok titles => .ok (Real.logb 2 (titles : Real))

/-- Embeds the inner syllable loop shared by both `generate_title`
variants: `word = ""` then `n_syllables` times
`word += SYLLABLES[randbelow(len(SYLLABLES))]`. -/
def buildWord : Nat → String → RState → Except PyError (String × RState)
  | 0, word, s => .ok (word, s)
  | k + 1, word, s =>
    match randbelow (SYLLABLES.length : Int) s with
    | .error e => .error e
    | .ok (i, s₁) => buildWord k (word ++ SYLLABLES.getD i.toNat "") s₁

/-- Embeds the word loop of `Scroll.generate_title` in `main.py`: each
iteration draws its own `n_syllables = rand_in_range(syllables_per_word)`
and appends the built word. -/
def genWordsMain (syl : MinMax) : Nat → List String → RState → Except PyError (List String × RState)
  | 0, words, s => .ok (words, s)
  | k + 1, words, s =>
    match rand_in_range syl s with
    | .error e => .error e
    | .ok (n_syllables, s₁) =>
      match buildWord n_syllables.toNat "" s₁ with
      | .error e => .error e
      | .ok (word, s₂) => genWordsMain syl k (words ++ [word]) s₂

/-- Embeds `Scroll.generate_title` of `main.py`: draw the word count,
build the words, join with single spaces. -/
def generate_title (syllables_per_word words_per_title : MinMax) (s : RState) :
    Except PyError (String × RState) :=
  match rand_in_range words_per_title s with
  | .error e => .error e
  | .ok (n_words, s₁) =>
    match genWordsMain syllables_per_word n_words.toNat [] s₁ with
    | .error e => .error e
    | .ok (words, s₂) => .ok (String.intercalate " " words, s₂)

/-- Embeds the word loop of `Scroll.generate_title` in `scroll.py`: the
loop variable `n_syllables` is carried across iterations (`none` models
Python `None`) and is refreshed only when it is falsy, i.e. `None` or
`0`; the fresh value is `randbelow(inclusive_diff) + min_syllables`. -/
def genWordsScroll (min_syllables inclusive_diff : Int) :
    Nat → Option Int → List String → RState → Except PyError (List String × RState)
  | 0, _, words, s => .ok (words, s)
  | k + 1, none, words, s =>
    match randbelow inclusive_diff s with
    | .error e => .error e
    | .ok (d, s₁) =>
      match buildWord (d + min_syllables).toNat "" s₁ with
      | .error e => .error e
      | .ok (word, s₂) =>
        genWordsScroll min_syllables inclusive_diff k (some (d + min_syllables)) (words ++ [word]) s₂
  | k + 1, some c, words, s =>
    if c = 0 then
      match randbelow inclusive_diff s with
      | .error e => .error e
      | .ok (d, s₁) =>
        match buildWord (d + min_syllables).toNat "" s₁ with
        | .error e => .error e
        | .ok (word, s₂) =>
          genWordsScroll min_syllables inclusive_diff k (some (d + min_syllables)) (words ++ [word]) s₂
    else
      match buildWord c.toNat "" s with
      | .error e => .error e
      | .ok (word, s₂) =>
        genWordsScroll min_syllables inclusive_diff k (some c) (words ++ [word]) s₂

/-- Embeds the word-count branch of `scroll.py`:
`n_words = min_words if min_words >= max_words else
randbelow((max_words - min_words) + 1) + min_words`. -/
def scrollNWords (min_words max_words : Int) (s : RState) : Except PyError (Int × RState) :=
  if min_words ≥ max_words then .ok (min_words, s)
  else
    match randbelow ((max_words - min_words) + 1) s with
    | .error e => .error e
    | .ok (d, s₁) => .ok (d + min_words, s₁)

/-- Embeds `Scroll.generate_title` of `scroll.py`: the fixed-or-drawn
word count, the `n_syllables`/`inclusive_diff` setup (a fixed nonrandom
count when `min_syllables >= max_syllables`, otherwise `None` and the
inclusive width), the carried-count word loop, and the single-space
join. -/
def generate_title_scroll (min_syllables max_syllables min_words max_words : Int)
    (s : RState) : Except PyError (String × RState) :=
  match scrollNWords min_words max_words s with
  | .error e => .error e
  | .ok (n_words, s₁) =>
    let init : Option Int × Int :=
      if min_syllables ≥ max_syllables then (some min_syllables, 0)
      else (none, (max_syllables - min_syllables) + 1)
    match genWordsScroll min_syllables init.2 n_words.toNat init.1 [] s₁ with
    | .error e => .error e
    | .ok (words, s₂) => .ok (String.intercalate " " words, s₂)

/-- The syllables that `buildWord` reads from tape `t` starting at
position `p` for `k` draws (an abstraction of the loop, linked to
`buildWord` by `buildWord_eq` below). -/
def sylsFrom (t : Nat → Nat) : Nat → Nat → List String
  | _, 0 => []
  | p, k + 1 => SYLLABLES.getD (t p % SYLLABLES.length) "" :: sylsFrom t (p + 1) k

/-- Concatenation of a list of strings without separator (the word a
`generate_title` variant assembles from its drawn syllables). -/
def joinStrings : List String → String
  | [] => ""
  | x :: xs => x ++ joinStrings xs

/-- A concrete tape used to witness per-word resampling when the word
count is fixed: entry 0 is the first syllable-count draw, entry `1 + k`
the second (after the `k` zero entries that select syllable "a" for the
first word), everything else selects syllable "a" or the minimum
count. -/
def tapeDeg (a b k : Nat) : Nat → Nat := fun i =>
  if i = 0 then a else if i = 1 + k then b else 0

/-- Like `tapeDeg`, with an extra leading entry `w` consumed by the
word-count draw. -/
def tapeDraw (w a b k : Nat) : Nat → Nat := fun i =>
  if i = 0 then w else if i = 1 then a else if i = 2 + k then b else 0

theorem SYLLABLES_length : SYLLABLES.length = 147 := rfl

theorem getD_mem_of_lt {α : Type} (l : List α) (n : Nat) (d : α) (h : n < l.length) :
    l.getD n d ∈ l := by
  induction l generalizing n with
  | nil => simp at h
  | cons x xs ih =>
    cases n with
    | zero => simp [List.getD]
    | succ m =>
      simp only [List.getD_cons_succ]
      exact List.mem_cons_of_mem _ (ih m (by simpa using h))

theorem randbelow_pos (n : Int) (hn : 0 < n) (t : Nat → Nat) (p : Nat) :
    randbelow n ⟨t, p⟩ = .ok (((t p % n.toNat : Nat) : Int), ⟨t, p + 1⟩) := by
  simp [randbelow, not_le.mpr hn]

theorem rand_in_range_deg (r : MinMax) (h : r.min = r.max) (s : RState) :
    rand_in_range r s = .ok (r.min, s) := by
  simp [rand_in_range, h]

theorem rand_in_range_lt (r : MinMax) (h : r.min < r.max) (t : Nat → Nat) (p : Nat) :
    rand_in_range r ⟨t, p⟩ =
      .ok (((t p % (r.max - r.min + 1).toNat : Nat) : Int) + r.min, ⟨t, p + 1⟩) := by
  have hd : r.max - r.min ≠ 0 := by omega
  have hpos : (0 : Int) < r.max - r.min + 1 := by omega
  simp [rand_in_range, hd, randbelow_pos _ hpos]

theorem rand_in_range_ok (r : MinMax) (h : r.min ≤ r.max) (s : RState) :
    ∃ v s₁, rand_in_range r s = .ok (v, s₁) ∧ r.min ≤ v ∧ v ≤ r.max ∧
      s₁.tape = s.tape := by
  obtain ⟨t, p⟩ := s
  rcases eq_or_lt_of_le h with heq | hlt
  · exact ⟨r.min, ⟨t, p⟩, rand_in_range_deg r heq ⟨t, p⟩, le_refl _, le_of_eq heq, rfl⟩
  · refine ⟨_, _, rand_in_range_lt r hlt t p, ?_, ?_, rfl⟩
    · have : (0 : Int) ≤ ((t p % (r.max - r.min + 1).toNat : Nat) : Int) := Int.natCast_nonneg _
      omega
    · have hmod : t p % (r.max - r.min + 1).toNat < (r.max - r.min + 1).toNat :=
        Nat.mod_lt _ (by omega)
      have : ((t p % (r.max - r.min + 1).toNat : Nat) : Int) < r.max - r.min + 1 := by
        have := Int.ofNat_lt.mpr hmod
        calc ((t p % (r.max - r.min + 1).toNat : Nat) : Int)
            < ((r.max - r.min + 1).toNat : Int) := this
          _ = r.max - r.min + 1 := by omega
      omega

theorem buildWord_succ (m : Nat) (w : String) (t : Nat → Nat) (p : Nat) :
    buildWord (m + 1) w ⟨t, p⟩ =
      buildWord m (w ++ SYLLABLES.getD (t p % SYLLABLES.length) "") ⟨t, p + 1⟩ := by
  have hpos : (0 : Int) < (SYLLABLES.length : Int) := by
    rw [SYLLABLES_length]; omega
  rw [buildWord, randbelow_pos _ hpos]
  rfl

theorem buildWord_eq (k : Nat) (w : String) (t : Nat → Nat) (p : Nat) :
    buildWord k w ⟨t, p⟩ = .ok (w ++ joinStrings (sylsFrom t p k), ⟨t, p + k⟩) := by
  induction k generalizing w p with
  | zero => simp [buildWord, sylsFrom, joinStrings]
  | succ m ih =>
    rw [buildWord_succ, ih]
    rw [show p + 1 + m = p + (m + 1) by omega]
    rw [show sylsFrom t p (m + 1)
          = SYLLABLES.getD (t p % SYLLABLES.length) "" :: sylsFrom t (p + 1) m from rfl]
    rw [show joinStrings (SYLLABLES.getD (t p % SYLLABLES.length) "" :: sylsFrom t (p + 1) m)
          = SYLLABLES.getD (t p % SYLLABLES.length) "" ++ joinStrings (sylsFrom t (p + 1) m) from rfl]
    rw [String.append_assoc]

theorem sylsFrom_length (t : Nat → Nat) (p k : Nat) : (sylsFrom t p k).length = k := by
  induction k generalizing p with
  | zero => rfl
  | succ m ih => simp [sylsFrom, ih]

theorem sylsFrom_mem (t : Nat → Nat) (p k : Nat) (y : String) (hy : y ∈ sylsFrom t p k) :
    y ∈ SYLLABLES := by
  induction k generalizing p with
  | zero => simp [sylsFrom] at hy
  | succ m ih =>
    simp only [sylsFrom, List.mem_cons] at hy
    rcases hy with h | h
    · subst h
      exact getD_mem_of_lt _ _ _ (Nat.mod_lt _ (by rw [SYLLABLES_length]; omega))
    · exact ih _ h

theorem sylsFrom_split (t : Nat → Nat) (a b p : Nat) :
    sylsFrom t p (a + b) = sylsFrom t p a ++ sylsFrom t (p + a) b := by
  induction a generalizing p with
  | zero => simp [sylsFrom]
  | succ m ih =>
    have : m + 1 + b = (m + b) + 1 := by omega
    rw [this]
    simp only [sylsFrom, List.cons_append, ih (p + 1)]
    have : p + 1 + m = p + (m + 1) := by omega
    rw [this]

theorem joinStrings_append (l₁ l₂ : List String) :
    joinStrings (l₁ ++ l₂) = joinStrings l₁ ++ joinStrings l₂ := by
  induction l₁ with
  | nil => simp [joinStrings]
  | cons x xs ih => simp [joinStrings, ih, String.append_assoc]

theorem joinStrings_len_ge (l : List String) (hl : ∀ y ∈ l, 1 ≤ y.length) :
    l.length ≤ (joinStrings l).length := by
  induction l with
  | nil => simp [joinStrings]
  | cons x xs ih =>
    simp only [joinStrings, String.length_append, List.length_cons]
    have h1 : 1 ≤ x.length := hl x (List.mem_cons_self _ _)
    have h2 : xs.length ≤ (joinStrings xs).length := ih (fun y hy => hl y (List.mem_cons_of_mem _ hy))
    omega

theorem SYLLABLES_nonempty_strings : ∀ y ∈ SYLLABLES, 1 ≤ y.length := by decide

theorem sylsFrom_join_len_lt (t : Nat → Nat) (p : Nat) (k₁ k₂ : Nat) (h : k₁ < k₂) :
    (joinStrings (sylsFrom t p k₁)).length < (joinStrings (sylsFrom t p k₂)).length := by
  obtain ⟨m, rfl⟩ : ∃ m, k₂ = k₁ + (m + 1) := ⟨k₂ - k₁ - 1, by omega⟩
  rw [sylsFrom_split, joinStrings_append, String.length_append]
  have h1 : (m + 1) ≤ (joinStrings (sylsFrom t (p + k₁) (m + 1))).length := by
    have := joinStrings_len_ge (sylsFrom t (p + k₁) (m + 1))
      (fun y hy => SYLLABLES_nonempty_strings y (sylsFrom_mem _ _ _ y hy))
    rwa [sylsFrom_length] at this
  omega

theorem sylsFrom_join_inj (t : Nat → Nat) (p : Nat) (k₁ k₂ : Nat)
    (h : joinStrings (sylsFrom t p k₁) = joinStrings (sylsFrom t p k₂)) : k₁ = k₂ := by
  rcases Nat.lt_trichotomy k₁ k₂ with hlt | heq | hgt
  · have := sylsFrom_join_len_lt t p k₁ k₂ hlt
    rw [h] at this
    omega
  · exact heq
  · have := sylsFrom_join_len_lt t p k₂ k₁ hgt
    rw [h] at this
    omega

theorem sylsFrom_const_zero (t : Nat → Nat) (p k : Nat)
    (h : ∀ j < k, t (p + j) % SYLLABLES.length = 0) :
    sylsFrom t p k = List.replicate k "a" := by
  induction k generalizing p with
  | zero => rfl
  | succ m ih =>
    have h0 : t p % SYLLABLES.length = 0 := by
      have := h 0 (by omega)
      simpa using this
    rw [sylsFrom, h0, List.replicate_succ]
    congr 1
    exact ih (p + 1) (fun j hj => by
      have := h (j + 1) (by omega)
      rwa [show p + (j + 1) = p + 1 + j by omega] at this)

theorem empty_append (x : String) : "" ++ x = x := rfl

theorem genWordsMain_step (syl : MinMax) (m : Nat) (acc : List String)
    (t : Nat → Nat) (p : Nat) (v : Int) (q : Nat)
    (hr : rand_in_range syl ⟨t, p⟩ = .ok (v, ⟨t, q⟩)) :
    genWordsMain syl (m + 1) acc ⟨t, p⟩ =
      genWordsMain syl m (acc ++ [joinStrings (sylsFrom t q v.toNat)]) ⟨t, q + v.toNat⟩ := by
  simp only [genWordsMain, hr, buildWord_eq, empty_append]

theorem genWordsMain_ok (syl : MinMax) (h : syl.min ≤ syl.max) :
    ∀ (k : Nat) (acc : List String) (s : RState), ∃ ws s₁,
      genWordsMain syl k acc s = .ok (acc ++ ws, s₁) ∧ ws.length = k ∧ s₁.tape = s.tape ∧
      ∀ w ∈ ws, ∃ c : Int, syl.min ≤ c ∧ c ≤ syl.max ∧
        ∃ p, w = joinStrings (sylsFrom s.tape p c.toNat) := by
  intro k
  induction k with
  | zero =>
    intro acc s
    exact ⟨[], s, by simp [genWordsMain], rfl, rfl, by simp⟩
  | succ m ih =>
    intro acc s
    obtain ⟨t, p⟩ := s
    obtain ⟨v, s₁, hr, hv1, hv2, ht1⟩ := rand_in_range_ok syl h ⟨t, p⟩
    obtain ⟨t1, q⟩ := s₁
    replace ht1 : t = t1 := ht1.symm
    subst ht1
    have hstep := genWordsMain_step syl m acc t p v q hr
    obtain ⟨ws, s₂, hg, hl, htape, hprop⟩ :=
      ih (acc ++ [joinStrings (sylsFrom t q v.toNat)]) ⟨t, q + v.toNat⟩
    refine ⟨joinStrings (sylsFrom t q v.toNat) :: ws, s₂, ?_, by simp [hl], htape, ?_⟩
    · rw [hstep, hg]
      simp
    · intro w hw
      rcases List.mem_cons.mp hw with rfl | hw
      · exact ⟨v, hv1, hv2, q, rfl⟩
      · obtain ⟨c, hc1, hc2, pp, hpp⟩ := hprop w hw
        exact ⟨c, hc1, hc2, pp, hpp⟩

theorem genWordsScroll_step_fixed (min_s diff c : Int) (hc : c ≠ 0) (m : Nat)
    (acc : List String) (t : Nat → Nat) (p : Nat) :
    genWordsScroll min_s diff (m + 1) (some c) acc ⟨t, p⟩ =
      genWordsScroll min_s diff m (some c)
        (acc ++ [joinStrings (sylsFrom t p c.toNat)]) ⟨t, p + c.toNat⟩ := by
  simp only [genWordsScroll, if_neg hc, buildWord_eq, empty_append]

theorem genWordsScroll_step_fresh (min_s diff : Int) (hd : 0 < diff) (m : Nat)
    (nsyl : Option Int) (hn : nsyl = none ∨ nsyl = some 0)
    (acc : List String) (t : Nat → Nat) (p : Nat) :
    genWordsScroll min_s diff (m + 1) nsyl acc ⟨t, p⟩ =
      genWordsScroll min_s diff m (some (((t p % diff.toNat : Nat) : Int) + min_s))
        (acc ++ [joinStrings (sylsFrom t (p + 1)
          (((t p % diff.toNat : Nat) : Int) + min_s).toNat)])
        ⟨t, p + 1 + (((t p % diff.toNat : Nat) : Int) + min_s).toNat⟩ := by
  rcases hn with rfl | rfl
  · simp only [genWordsScroll, randbelow_pos _ hd, buildWord_eq, empty_append]
  · simp only [genWordsScroll, if_pos rfl, randbelow_pos _ hd, buildWord_eq, empty_append,
      if_true]

theorem genWordsScroll_fixed (min_s diff c : Int) (hc : c ≠ 0) :
    ∀ (k : Nat) (acc : List String) (s : RState), ∃ ws s₁,
      genWordsScroll min_s diff k (some c) acc s = .ok (acc ++ ws, s₁) ∧
      ws.length = k ∧ s₁.tape = s.tape ∧
      ∀ w ∈ ws, ∃ p, w = joinStrings (sylsFrom s.tape p c.toNat) := by
  intro k
  induction k with
  | zero =>
    intro acc s
    exact ⟨[], s, by simp [genWordsScroll], rfl, rfl, by simp⟩
  | succ m ih =>
    intro acc s
    obtain ⟨t, p⟩ := s
    obtain ⟨ws, s₁, hg, hl, htape, hprop⟩ :=
      ih (acc ++ [joinStrings (sylsFrom t p c.toNat)]) ⟨t, p + c.toNat⟩
    refine ⟨joinStrings (sylsFrom t p c.toNat) :: ws, s₁, ?_, by simp [hl], htape, ?_⟩
    · rw [genWordsScroll_step_fixed min_s diff c hc m acc t p, hg]
      simp
    · intro w hw
      rcases List.mem_cons.mp hw with rfl | hw
      · exact ⟨p, rfl⟩
      · exact hprop w hw

theorem genWordsScroll_fresh (min_s max_s : Int) (h : min_s < max_s) :
    ∀ (k : Nat) (nsyl : Option Int) (acc : List String) (s : RState),
      (nsyl = none ∨ ∃ c : Int, nsyl = some c ∧ min_s ≤ c ∧ c ≤ max_s) →
      ∃ ws s₁,
        genWordsScroll min_s (max_s - min_s + 1) k nsyl acc s = .ok (acc ++ ws, s₁) ∧
        ws.length = k ∧ s₁.tape = s.tape ∧
        ∀ w ∈ ws, ∃ (c : Int) (p : Nat), min_s ≤ c ∧ c ≤ max_s ∧
          w = joinStrings (sylsFrom s.tape p c.toNat) := by
  have hd : (0 : Int) < max_s - min_s + 1 := by omega
  intro k
  induction k with
  | zero =>
    intro nsyl acc s _
    exact ⟨[], s, by cases nsyl <;> simp [genWordsScroll], rfl, rfl, by simp⟩
  | succ m ih =>
    intro nsyl acc s hinv
    obtain ⟨t, p⟩ := s
    by_cases hfresh : nsyl = none ∨ nsyl = some 0
    · set d : Int := ((t p % (max_s - min_s + 1).toNat : Nat) : Int) with hd_def
      have hd0 : 0 ≤ d := Int.natCast_nonneg _
      have hdlt : d < max_s - min_s + 1 := by
        have hmod : t p % (max_s - min_s + 1).toNat < (max_s - min_s + 1).toNat :=
          Nat.mod_lt _ (by omega)
        have := Int.ofNat_lt.mpr hmod
        omega
      have hc1 : min_s ≤ d + min_s := by omega
      have hc2 : d + min_s ≤ max_s := by omega
      have hstep := genWordsScroll_step_fresh min_s (max_s - min_s + 1) hd m nsyl hfresh acc t p
      obtain ⟨ws, s₁, hg, hl, htape, hprop⟩ :=
        ih (some (d + min_s))
          (acc ++ [joinStrings (sylsFrom t (p + 1) (d + min_s).toNat)])
          ⟨t, p + 1 + (d + min_s).toNat⟩
          (Or.inr ⟨d + min_s, rfl, hc1, hc2⟩)
      refine ⟨joinStrings (sylsFrom t (p + 1) (d + min_s).toNat) :: ws, s₁, ?_,
        by simp [hl], htape, ?_⟩
      · rw [hstep, hg]
        simp
      · intro w hw
        rcases List.mem_cons.mp hw with rfl | hw
        · exact ⟨d + min_s, p + 1, hc1, hc2, rfl⟩
        · exact hprop w hw
    · rcases hinv with rfl | ⟨c, rfl, hcl, hcr⟩
      · exact absurd (Or.inl rfl) hfresh
      have hc : c ≠ 0 := by
        intro h0
        exact hfresh (Or.inr (by rw [h0]))
      obtain ⟨ws, s₁, hg, hl, htape, hprop⟩ :=
        ih (some c) (acc ++ [joinStrings (sylsFrom t p c.toNat)]) ⟨t, p + c.toNat⟩
          (Or.inr ⟨c, rfl, hcl, hcr⟩)
      refine ⟨joinStrings (sylsFrom t p c.toNat) :: ws, s₁, ?_, by simp [hl], htape, ?_⟩
      · rw [genWordsScroll_step_fixed min_s _ c hc m acc t p, hg]
        simp
      · intro w hw
        rcases List.mem_cons.mp hw with rfl | hw
        · exact ⟨c, p, hcl, hcr, rfl⟩
        · exact hprop w hw

theorem foldl_pow_sum (n : Int) (l : List Int) (a : Int) :
    l.foldl (fun total length => total + n ^ length.toNat) a
      = a + (l.map (fun length => n ^ length.toNat)).sum := by
  induction l generalizing a with
  | nil => simp
  | cons x xs ih => simp [List.foldl_cons, ih, add_assoc]

theorem range_map_sum_Icc (g : Int → Int) :
    ∀ (L : Nat) (mn : Int),
      ((List.range L).map (fun k : Nat => g (mn + (k : Int)))).sum
        = ∑ l in Finset.Icc mn (mn + (L : Int) - 1), g l := by
  intro L
  induction L with
  | zero =>
    intro mn
    rw [Finset.Icc_eq_empty (by omega)]
    simp
  | succ M ih =>
    intro mn
    rw [List.range_succ, List.map_append, List.sum_append]
    have hins : Finset.Icc mn (mn + ((M + 1 : Nat) : Int) - 1) =
        insert (mn + (M : Int)) (Finset.Icc mn (mn + (M : Int) - 1)) := by
      ext x
      simp only [Finset.mem_Icc, Finset.mem_insert]
      push_cast
      omega
    rw [hins, Finset.sum_insert (by simp only [Finset.mem_Icc]; omega), ih mn]
    simp [add_comm]

theorem intRange_pow_sum (n mn mx : Int) (h : mn ≤ mx) :
    ((intRange mn mx).map (fun l => n ^ l.toNat)).sum
      = ∑ l in Finset.Icc mn mx, n ^ l.toNat := by
  unfold intRange
  rw [List.map_map]
  have key := range_map_sum_Icc (fun l => n ^ l.toNat) (mx + 1 - mn).toNat mn
  have hb : mn + (((mx + 1 - mn).toNat : Nat) : Int) - 1 = mx := by omega
  rw [hb] at key
  exact key

/-- C1 (code_bug evidence): the map from uniform scores in `[1, max_prob]`
to kind indices computed by `choose` yields bucket widths
`[3, 2, 3, 7, ...]`, while the declared weights are `[7, 4, 2, 3, ...]`;
in particular kind 0 ("monster confusion", weight 7) receives only 3 of
the 100 scores, so selection is not proportional to the declared
weights. -/
theorem choose_bucket_widths_ne_weights :
    (List.range SCROLLS.length).map bucketWidth =
      [3, 2, 3, 7, 10, 10, 6, 7, 10, 3, 2, 5, 8, 4, 7, 3, 2, 8] ∧
    SCROLLS.map Prod.snd = [7, 4, 2, 3, 7, 10, 10, 6, 7, 10, 3, 2, 5, 8, 4, 7, 3, 2] ∧
    bucketWidth 0 = 3 ∧ (SCROLLS.map Prod.snd).getD 0 0 = 7 := by
  exact ⟨by decide, by decide, by decide, by decide⟩

/-- C2 (counterexample): the first entry of the breakpoint table built by
`cumulative` is 4, not the prefix sum `weights[0] = 7` the claim
states. -/
theorem cumulative_first_entry_ne_prefix_sum :
    cumulative.getD 0 0 = 4 ∧ ((SCROLLS.map Prod.snd).take 1).sum = 7 ∧
    cumulative.getD 0 0 ≠ ((SCROLLS.map Prod.snd).take 1).sum := by
  exact ⟨by decide, by decide, by decide⟩

/-- C2 (amended): the table has exactly `n - 1` entries for the `n`
catalog kinds, and its `i`-th entry is the sum `weights[1] + ... +
weights[i+1]`, i.e. the prefix sums excluding the final total and with
the first weight subtracted from each. -/
theorem cumulative_entries_shifted_prefix_sums :
    cumulative.length + 1 = SCROLLS.length ∧
    ∀ i ∈ Finset.range cumulative.length,
      cumulative.getD i 0 = (((SCROLLS.map Prod.snd).drop 1).take (i + 1)).sum := by
  exact ⟨by decide, by decide⟩

theorem cumulative_entries_shifted_prefix_sums_witness :
    cumulative.length + 1 = SCROLLS.length ∧
    cumulative.getD 0 0 = (((SCROLLS.map Prod.snd).drop 1).take 1).sum := by
  exact ⟨cumulative_entries_shifted_prefix_sums.1,
    cumulative_entries_shifted_prefix_sums.2 0 (by decide)⟩

/-- C5 (counterexample): when both error conditions hold the range check
fires first, so `count_possibilities 0 5 3` fails with `InvalidRange`,
not with the `InvalidBase` the claim promises for every `n < 1`. -/
theorem count_possibilities_range_error_precedence :
    count_possibilities 0 5 3 = .error .invalidRange ∧
    CPError.invalidRange ≠ CPError.invalidBase := by
  exact ⟨rfl, by decide⟩

/-- C5 (amended): `count_possibilities n mn mx` fails with `InvalidRange`
whenever `mn > mx` (this check takes precedence), fails with
`InvalidBase` when `mn ≤ mx` and `n < 1`, and for `n ≥ 1`,
`0 ≤ mn ≤ mx` returns exactly the integer `Σ_{l=mn}^{mx} n^l`. -/
theorem count_possibilities_spec :
    (∀ n mn mx : Int, mx < mn → count_possibilities n mn mx = .error .invalidRange) ∧
    (∀ n mn mx : Int, mn ≤ mx → n < 1 → count_possibilities n mn mx = .error .invalidBase) ∧
    (∀ n mn mx : Int, 1 ≤ n → 0 ≤ mn → mn ≤ mx →
      count_possibilities n mn mx = .ok (∑ l in Finset.Icc mn mx, n ^ l.toNat)) := by
  refine ⟨?_, ?_, ?_⟩
  · intro n mn mx h
    unfold count_possibilities
    rw [if_pos h]
  · intro n mn mx h1 h2
    unfold count_possibilities
    rw [if_neg (not_lt.mpr h1), if_pos h2]
  · intro n mn mx hn hmn h
    unfold count_possibilities
    rw [if_neg (not_lt.mpr h), if_neg (not_lt.mpr hn)]
    rw [foldl_pow_sum, zero_add, intRange_pow_sum n mn mx h]

theorem count_possibilities_spec_witness :
    count_possibilities 2 5 3 = .error .invalidRange ∧
    count_possibilities 0 1 3 = .error .invalidBase ∧
    count_possibilities 2 0 3 = .ok (∑ l in Finset.Icc (0 : Int) 3, 2 ^ l.toNat) := by
  exact ⟨count_possibilities_spec.1 2 5 3 (by decide),
    count_possibilities_spec.2.1 0 1 3 (by decide) (by decide),
    count_possibilities_spec.2.2 2 0 3 (by decide) (by decide) (by decide)⟩

/-- C6: for a valid range, `rand_in_range` always returns a value of
`[r.min, r.max]`; when `r.min = r.max` it returns that constant and the
random state is untouched (no draw is consumed); otherwise it consumes
exactly one draw, the result is `min + (tape entry mod width)`, and the
map from raw draw values `d < max - min + 1` to results is a bijection
onto `[r.min, r.max]` (each result arises from exactly one raw value),
which is uniformity of the sample. -/
theorem rand_in_range_uniform (r : MinMax) (h : r.min ≤ r.max) :
    (∀ s : RState, ∃ v s₁, rand_in_range r s = .ok (v, s₁) ∧ r.min ≤ v ∧ v ≤ r.max) ∧
    (r.min = r.max → ∀ s : RState, rand_in_range r s = .ok (r.min, s)) ∧
    (r.min < r.max →
      (∀ (t : Nat → Nat) (p : Nat), rand_in_range r ⟨t, p⟩ =
        .ok (((t p % (r.max - r.min + 1).toNat : Nat) : Int) + r.min, ⟨t, p + 1⟩)) ∧
      ∀ v : Int, r.min ≤ v → v ≤ r.max →
        ∃! d : Nat, d < (r.max - r.min + 1).toNat ∧ ((d : Int) + r.min = v)) := by
  refine ⟨?_, fun he s => rand_in_range_deg r he s, fun hlt => ⟨rand_in_range_lt r hlt, ?_⟩⟩
  · intro s
    obtain ⟨v, s₁, h1, h2, h3, _⟩ := rand_in_range_ok r h s
    exact ⟨v, s₁, h1, h2, h3⟩
  · intro v hv1 hv2
    refine ⟨(v - r.min).toNat, ⟨by omega, by omega⟩, ?_⟩
    intro d hd
    omega

theorem rand_in_range_uniform_witness :
    (∃ v s₁, rand_in_range ⟨2, 5⟩ ⟨fun _ => 9, 0⟩ = .ok (v, s₁) ∧ 2 ≤ v ∧ v ≤ 5) ∧
    rand_in_range ⟨3, 3⟩ ⟨fun _ => 9, 0⟩ = .ok (3, ⟨fun _ => 9, 0⟩) := by
  exact ⟨(rand_in_range_uniform ⟨2, 5⟩ (by decide)).1 ⟨fun _ => 9, 0⟩,
    (rand_in_range_uniform ⟨3, 3⟩ (by decide)).2.1 rfl ⟨fun _ => 9, 0⟩⟩

/-- C9: the breakpoint search sends every score of `[1, max_prob]` to one
of the `SCROLLS.length` kind indices, every kind index receives at least
one score (so the score space is partitioned into exactly as many buckets
as there are catalog kinds), and the bucket widths sum to the total
declared weight. -/
theorem bucket_partition_roundtrip :
    (∀ score ∈ Finset.Icc (1 : Int) max_prob, bisect cumulative score < SCROLLS.length) ∧
    (∀ i ∈ Finset.range SCROLLS.length, 0 < bucketWidth i) ∧
    ∑ i in Finset.range SCROLLS.length, bucketWidth i = max_prob.toNat := by
  exact ⟨by decide, by decide, by decide⟩

theorem bucket_partition_roundtrip_witness :
    bisect cumulative 1 < SCROLLS.length ∧ 0 < bucketWidth 0 ∧
    ∑ i in Finset.range SCROLLS.length, bucketWidth i = max_prob.toNat := by
  exact ⟨bucket_partition_roundtrip.1 1 (by decide),
    bucket_partition_roundtrip.2.1 0 (by decide), bucket_partition_roundtrip.2.2⟩

/-- C10 (counterexample): `generate_title_scroll` with the invalid word
range `min_words = 3 > 1 = max_words` can still raise (the fixed
syllable count 0 triggers `randbelow(0)`), and with
`min_words = -1 > -2 = max_words` the title has 0 words, not
`min_words` words. -/
theorem scroll_invalid_words_failures :
    generate_title_scroll 0 0 3 1 ⟨fun _ => 0, 0⟩ = .error .valueError ∧
    generate_title_scroll 1 1 (-1) (-2) ⟨fun _ => 0, 0⟩ = .ok ("", ⟨fun _ => 0, 0⟩) ∧
    ((-1 : Int) ≠ 0) := by
  exact ⟨rfl, rfl, by decide⟩

/-- C10 (amended): in the scroll.py variant a call with
`min_words > max_words` raises no error from the word-range handling:
provided the syllable parameters do not independently fail (that is,
`min_syllables < max_syllables`, or the fixed count `min_syllables` is
nonzero), the range is silently treated as fixed and the title has
exactly `max(min_words, 0)` words, bypassing the InvalidRange validation
policy. -/
theorem scroll_invalid_words_fixed_count (min_s max_s min_w max_w : Int)
    (hw : max_w < min_w) (hs : min_s < max_s ∨ min_s ≠ 0) (s : RState) :
    ∃ ws s₁, generate_title_scroll min_s max_s min_w max_w s =
      .ok (String.intercalate " " ws, s₁) ∧ ws.length = min_w.toNat := by
  obtain ⟨t, p⟩ := s
  have hnw : scrollNWords min_w max_w ⟨t, p⟩ = .ok (min_w, ⟨t, p⟩) := by
    simp [scrollNWords, le_of_lt hw]
  by_cases hms : max_s ≤ min_s
  · have hs0 : min_s ≠ 0 := by
      rcases hs with h | h
      · omega
      · exact h
    obtain ⟨ws, s₁, hg, hl, _, _⟩ :=
      genWordsScroll_fixed min_s 0 min_s hs0 min_w.toNat [] ⟨t, p⟩
    refine ⟨ws, s₁, ?_, by simpa using hl⟩
    simp only [generate_title_scroll, hnw, if_pos hms]
    rw [hg]
    simp
  · have hlt : min_s < max_s := not_le.mp hms
    obtain ⟨ws, s₁, hg, hl, _, _⟩ :=
      genWordsScroll_fresh min_s max_s hlt min_w.toNat none [] ⟨t, p⟩ (Or.inl rfl)
    refine ⟨ws, s₁, ?_, by simpa using hl⟩
    simp only [generate_title_scroll, hnw, if_neg hms]
    rw [hg]
    simp

theorem scroll_invalid_words_fixed_count_witness :
    ∃ ws s₁, generate_title_scroll 1 1 3 1 ⟨fun _ => 0, 0⟩ =
      .ok (String.intercalate " " ws, s₁) ∧ ws.length = (3 : Int).toNat := by
  exact scroll_invalid_words_fixed_count 1 1 3 1 (by decide) (Or.inr (by decide))
    ⟨fun _ => 0, 0⟩

/-- C8: `choose` never fails on the built-in catalog: the assertion on
the breakpoint-table length holds, every score of `[1, max_prob]` is
mapped by the breakpoint search to a valid index into the kind names,
and for every random state a kind name from the catalog is returned. -/
theorem choose_never_fails :
    cumulative.length = (SCROLLS.map Prod.fst).length - 1 ∧
    (∀ score ∈ Finset.Icc (1 : Int) max_prob,
      bisect cumulative score < (SCROLLS.map Prod.fst).length) ∧
    ∀ s : RState, ∃ name s₁, choose s = .ok (name, s₁) ∧ name ∈ SCROLLS.map Prod.fst := by
  refine ⟨by decide, by decide, ?_⟩
  intro s
  obtain ⟨t, p⟩ := s
  have h100 : (0 : Int) < max_prob := by decide
  have hcond : cumulative.length = (SCROLLS.map Prod.fst).length - 1 := by decide
  have hstep : choose ⟨t, p⟩ =
      .ok ((SCROLLS.map Prod.fst).getD
        (bisect cumulative (((t p % max_prob.toNat : Nat) : Int) + 1)) "", ⟨t, p + 1⟩) := by
    simp only [choose, hcond, if_true, randbelow_pos _ h100]
  have hdlt : t p % max_prob.toNat < 100 := by
    have h := Nat.mod_lt (t p) (show 0 < max_prob.toNat by decide)
    have : max_prob.toNat = 100 := by decide
    omega
  have hall : ∀ score ∈ Finset.Icc (1 : Int) max_prob,
      bisect cumulative score < (SCROLLS.map Prod.fst).length := by decide
  have hmem : (((t p % max_prob.toNat : Nat) : Int) + 1) ∈ Finset.Icc (1 : Int) max_prob := by
    rw [Finset.mem_Icc]
    have h0 : (0 : Int) ≤ ((t p % max_prob.toNat : Nat) : Int) := Int.natCast_nonneg _
    have h99 : ((t p % max_prob.toNat : Nat) : Int) ≤ 99 := by
      have := Int.ofNat_le.mpr (Nat.le_of_lt_succ hdlt)
      omega
    have : max_prob = 100 := by decide
    omega
  exact ⟨_, _, hstep, getD_mem_of_lt _ _ _ (hall _ hmem)⟩

theorem choose_never_fails_witness :
    cumulative.length = (SCROLLS.map Prod.fst).length - 1 ∧
    bisect cumulative 1 < (SCROLLS.map Prod.fst).length ∧
    ∃ name s₁, choose ⟨fun _ => 0, 0⟩ = .ok (name, s₁) ∧ name ∈ SCROLLS.map Prod.fst := by
  exact ⟨choose_never_fails.1, choose_never_fails.2.1 1 (by decide),
    choose_never_fails.2.2 ⟨fun _ => 0, 0⟩⟩

theorem count_possibilities_ok (n mn mx : Int) (hn : 1 ≤ n) (h : mn ≤ mx) :
    count_possibilities n mn mx = .ok (∑ l in Finset.Icc mn mx, n ^ l.toNat) := by
  unfold count_possibilities
  rw [if_neg (not_lt.mpr h), if_neg (not_lt.mpr hn)]
  rw [foldl_pow_sum, zero_add, intRange_pow_sum n mn mx h]

theorem sum_pow_ge_one (n mn mx : Int) (hn : 1 ≤ n) (h : mn ≤ mx) :
    1 ≤ ∑ l in Finset.Icc mn mx, n ^ l.toNat := by
  have hne : (Finset.Icc mn mx).Nonempty := Finset.nonempty_Icc.mpr h
  have hterm : ∀ l ∈ Finset.Icc mn mx, (1 : Int) ≤ n ^ l.toNat := by
    intro l _
    exact one_le_pow₀ hn
  calc (1 : Int) ≤ ((Finset.Icc mn mx).card : Int) := by
        have := Finset.Nonempty.card_pos hne
        omega
    _ = ∑ _l in Finset.Icc mn mx, (1 : Int) := by simp
    _ ≤ ∑ l in Finset.Icc mn mx, n ^ l.toNat := Finset.sum_le_sum hterm

/-- C7 (counterexample): the syllable catalog has 147 entries, not the
150 entries the claim asserts (so the concrete entropy value is
`log2 147`, not `log2 150 ≈ 7.2288`). -/
theorem syllable_catalog_not_150 :
    SYLLABLES.length = 147 ∧ SYLLABLES.length ≠ 150 := by
  exact ⟨rfl, by decide⟩

set_option exponentiation.threshold 1000

/-- C7 (amended): for valid nonnegative ranges `entropy` equals the exact
real `log2` of the nested `count_possibilities` composition (so it is a
pure function of the configuration, taking no random state); with both
ranges `[1,1]` it equals `log2` of the catalog size, which is
`log2 147 ≈ 7.1997` (strictly between 7.19 and 7.20), not
`log2 150 ≈ 7.2288`. -/
theorem entropy_spec :
    (∀ mins maxs minw maxw : Int, 0 ≤ mins → mins ≤ maxs → 0 ≤ minw → minw ≤ maxw →
      entropy mins maxs minw maxw = .ok (Real.logb 2
        (((∑ w in Finset.Icc minw maxw,
          (∑ l in Finset.Icc mins maxs, (147 : Int) ^ l.toNat) ^ w.toNat : Int)) : Real))) ∧
    entropy 1 1 1 1 = .ok (Real.logb 2 (147 : Real)) ∧
    (7.19 : Real) < Real.logb 2 (147 : Real) ∧ Real.logb 2 (147 : Real) < 7.2 := by
  have hsyl : ((SYLLABLES.length : Nat) : Int) = (147 : Int) := by decide
  refine ⟨?_, ?_, ?_, ?_⟩
  · intro mins maxs minw maxw h1 h2 _h3 h4
    have e1 : count_possibilities ((SYLLABLES.length : Nat) : Int) mins maxs
        = .ok (∑ l in Finset.Icc mins maxs, (147 : Int) ^ l.toNat) := by
      rw [hsyl]
      exact count_possibilities_ok 147 mins maxs (by norm_num) h2
    have e2 : count_possibilities (∑ l in Finset.Icc mins maxs, (147 : Int) ^ l.toNat) minw maxw
        = .ok (∑ w in Finset.Icc minw maxw,
            (∑ l in Finset.Icc mins maxs, (147 : Int) ^ l.toNat) ^ w.toNat) :=
      count_possibilities_ok _ minw maxw (sum_pow_ge_one 147 mins maxs (by norm_num) h2) h4
    simp only [entropy, e1, e2]
  · have c1 : count_possibilities ((SYLLABLES.length : Nat) : Int) 1 1 = .ok 147 := rfl
    have c2 : count_possibilities 147 1 1 = .ok 147 := rfl
    have hc : ((147 : Int) : Real) = (147 : Real) := by norm_num
    simp only [entropy, c1, c2, hc]
  · have hnat : (2 ^ 719 : Nat) < (147 ^ 100 : Nat) := by decide
    have hreal : ((2 : Real) ^ (719 : Nat)) < ((147 : Real) ^ (100 : Nat)) := by
      exact_mod_cast hnat
    have hlog := Real.logb_lt_logb (show (1 : Real) < 2 by norm_num) (by positivity) hreal
    rw [Real.logb_pow, Real.logb_pow, Real.logb_self_eq_one (by norm_num)] at hlog
    have : (719 : Real) < 100 * Real.logb 2 147 := by
      calc (719 : Real) = 719 * 1 := by norm_num
        _ < 100 * Real.logb 2 147 := by exact_mod_cast hlog
    nlinarith
  · have hnat : (147 ^ 100 : Nat) < (2 ^ 720 : Nat) := by decide
    have hreal : ((147 : Real) ^ (100 : Nat)) < ((2 : Real) ^ (720 : Nat)) := by
      exact_mod_cast hnat
    have hlog := Real.logb_lt_logb (show (1 : Real) < 2 by norm_num) (by positivity) hreal
    rw [Real.logb_pow, Real.logb_pow, Real.logb_self_eq_one (by norm_num)] at hlog
    have : 100 * Real.logb 2 147 < (720 : Real) := by
      calc 100 * Real.logb 2 147 < 720 * 1 := by exact_mod_cast hlog
        _ = (720 : Real) := by norm_num
    nlinarith

theorem entropy_spec_witness :
    entropy 1 2 2 2 = .ok (Real.logb 2
      (((∑ w in Finset.Icc (2 : Int) 2,
        (∑ l in Finset.Icc (1 : Int) 2, (147 : Int) ^ l.toNat) ^ w.toNat : Int)) : Real)) ∧
    entropy 1 1 1 1 = .ok (Real.logb 2 (147 : Real)) ∧
    (7.19 : Real) < Real.logb 2 (147 : Real) ∧ Real.logb 2 (147 : Real) < 7.2 := by
  exact ⟨entropy_spec.1 1 2 2 2 (by decide) (by decide) (by decide) (by decide),
    entropy_spec.2.1, entropy_spec.2.2.1, entropy_spec.2.2.2⟩

/-- C3 (counterexample): in the scroll.py variant with syllable range
`[1, 3]` (so min < max) and exactly two words, no random tape yields two
words with different syllable counts: if the two words of the returned
word list are reproduced as `buildWord` runs of `k₁` and `k₂` syllable
draws starting at the positions the generator used, then `k₁ = k₂`
always, because the count drawn for the first word is reused for the
second. -/
theorem scroll_variant_shares_syllable_count :
    ¬ ∃ (t : Nat → Nat) (p : Nat) (w₁ w₂ : String) (sF : RState) (k₁ k₂ : Nat)
        (s₁ s₂ : RState),
      genWordsScroll 1 3 2 none [] ⟨t, p⟩ = .ok ([w₁, w₂], sF) ∧
      buildWord k₁ "" ⟨t, p + 1⟩ = .ok (w₁, s₁) ∧
      buildWord k₂ "" s₁ = .ok (w₂, s₂) ∧ k₁ ≠ k₂ := by
  rintro ⟨t, p, w₁, w₂, sF, k₁, k₂, s₁, s₂, hgen, hb1, hb2, hne⟩
  have hcne : ((t p % (3 : Int).toNat : Nat) : Int) + 1 ≠ 0 := by
    have := Int.natCast_nonneg (t p % (3 : Int).toNat)
    omega
  have hstep1 := genWordsScroll_step_fresh 1 3 (by norm_num) 1 none (Or.inl rfl) [] t p
  have hstep2 := genWordsScroll_step_fixed 1 3 (((t p % (3 : Int).toNat : Nat) : Int) + 1)
    hcne 0
    ([] ++ [joinStrings (sylsFrom t (p + 1) (((t p % (3 : Int).toNat : Nat) : Int) + 1).toNat)])
    t (p + 1 + (((t p % (3 : Int).toNat : Nat) : Int) + 1).toNat)
  rw [hstep1, hstep2] at hgen
  simp only [genWordsScroll, List.nil_append, List.cons_append, Except.ok.injEq,
    Prod.mk.injEq, List.cons.injEq, and_true] at hgen
  obtain ⟨⟨hjw1, hjw2⟩, hsF⟩ := hgen
  rw [buildWord_eq] at hb1
  simp only [empty_append, Except.ok.injEq, Prod.mk.injEq] at hb1
  obtain ⟨hbw1, hbs1⟩ := hb1
  have hk1 : k₁ = (((t p % (3 : Int).toNat : Nat) : Int) + 1).toNat :=
    sylsFrom_join_inj t (p + 1) _ _ (hbw1.trans hjw1.symm)
  rw [← hbs1, hk1] at hb2
  rw [buildWord_eq] at hb2
  simp only [empty_append, Except.ok.injEq, Prod.mk.injEq] at hb2
  obtain ⟨hbw2, hbs2⟩ := hb2
  have hk2 : k₂ = (((t p % (3 : Int).toNat : Nat) : Int) + 1).toNat :=
    sylsFrom_join_inj t _ _ _ (hbw2.trans hjw2.symm)
  exact hne (hk1.trans hk2.symm)

theorem tapeDeg_at0 (a b k : Nat) : tapeDeg a b k 0 = a := rfl

theorem tapeDeg_hit (a b k : Nat) : tapeDeg a b k (1 + k) = b := by
  show (if 1 + k = 0 then a else if 1 + k = 1 + k then b else 0) = b
  rw [if_neg (show 1 + k ≠ 0 by omega), if_pos rfl]

theorem tapeDeg_other (a b k i : Nat) (h0 : i ≠ 0) (h1 : i ≠ 1 + k) :
    tapeDeg a b k i = 0 := by
  show (if i = 0 then a else if i = 1 + k then b else 0) = 0
  rw [if_neg h0, if_neg h1]

theorem tapeDraw_at0 (w a b k : Nat) : tapeDraw w a b k 0 = w := rfl

theorem tapeDraw_at1 (w a b k : Nat) : tapeDraw w a b k 1 = a := rfl

theorem tapeDraw_hit (w a b k : Nat) : tapeDraw w a b k (2 + k) = b := by
  show (if 2 + k = 0 then w else if 2 + k = 1 then a
    else if 2 + k = 2 + k then b else 0) = b
  rw [if_neg (show 2 + k ≠ 0 by omega), if_neg (show 2 + k ≠ 1 by omega), if_pos rfl]

theorem tapeDraw_other (w a b k i : Nat) (h0 : i ≠ 0) (h1 : i ≠ 1) (h2 : i ≠ 2 + k) :
    tapeDraw w a b k i = 0 := by
  show (if i = 0 then w else if i = 1 then a else if i = 2 + k then b else 0) = 0
  rw [if_neg h0, if_neg h1, if_neg h2]

theorem genWordsMain_two_word_counts (syl : MinMax) (h1 : syl.min < syl.max)
    (_h2 : 1 ≤ syl.max) (m : Nat) (t : Nat → Nat) (p : Nat)
    (ht1 : t p = (syl.max - 1 - syl.min).toNat)
    (htz1 : ∀ j < (syl.max - 1).toNat, t (p + 1 + j) = 0)
    (ht2 : t (p + 1 + (syl.max - 1).toNat) = (syl.max - syl.min).toNat)
    (htz2 : ∀ j < syl.max.toNat, t (p + 2 + (syl.max - 1).toNat + j) = 0) :
    ∃ ws s₁, genWordsMain syl (m + 2) [] ⟨t, p⟩ = .ok (ws, s₁) ∧
      ws.get? 0 = some (joinStrings (List.replicate (syl.max - 1).toNat "a")) ∧
      ws.get? 1 = some (joinStrings (List.replicate syl.max.toNat "a")) := by
  have hr1 : rand_in_range syl ⟨t, p⟩ = .ok (syl.max - 1, ⟨t, p + 1⟩) := by
    rw [rand_in_range_lt syl h1 t p, ht1, Nat.mod_eq_of_lt (by omega)]
    have hval : (((syl.max - 1 - syl.min).toNat : Nat) : Int) + syl.min = syl.max - 1 := by
      omega
    rw [hval]
  have hstep1 := genWordsMain_step syl (m + 1) [] t p (syl.max - 1) (p + 1) hr1
  have hw1 : sylsFrom t (p + 1) (syl.max - 1).toNat = List.replicate (syl.max - 1).toNat "a" :=
    sylsFrom_const_zero t (p + 1) _ (fun j hj => by rw [htz1 j hj]; simp)
  have hr2 : rand_in_range syl ⟨t, p + 1 + (syl.max - 1).toNat⟩ =
      .ok (syl.max, ⟨t, p + 1 + (syl.max - 1).toNat + 1⟩) := by
    rw [rand_in_range_lt syl h1 t _, ht2, Nat.mod_eq_of_lt (by omega)]
    have hval : (((syl.max - syl.min).toNat : Nat) : Int) + syl.min = syl.max := by omega
    rw [hval]
  have hstep2 := genWordsMain_step syl m
    ([] ++ [joinStrings (sylsFrom t (p + 1) (syl.max - 1).toNat)])
    t (p + 1 + (syl.max - 1).toNat) syl.max (p + 1 + (syl.max - 1).toNat + 1) hr2
  have hw2 : sylsFrom t (p + 1 + (syl.max - 1).toNat + 1) syl.max.toNat =
      List.replicate syl.max.toNat "a" :=
    sylsFrom_const_zero t _ _ (fun j hj => by
      have hz := htz2 j hj
      rw [show p + 1 + (syl.max - 1).toNat + 1 + j = p + 2 + (syl.max - 1).toNat + j by omega,
        hz]
      simp)
  obtain ⟨tail, sF, hg, _, _, _⟩ := genWordsMain_ok syl (le_of_lt h1) m
    (([] ++ [joinStrings (sylsFrom t (p + 1) (syl.max - 1).toNat)]) ++
      [joinStrings (sylsFrom t (p + 1 + (syl.max - 1).toNat + 1) syl.max.toNat)])
    ⟨t, p + 1 + (syl.max - 1).toNat + 1 + syl.max.toNat⟩
  refine ⟨[] ++ [joinStrings (sylsFrom t (p + 1) (syl.max - 1).toNat)] ++
      [joinStrings (sylsFrom t (p + 1 + (syl.max - 1).toNat + 1) syl.max.toNat)] ++ tail,
    sF, ?_, ?_, ?_⟩
  · rw [hstep1, hstep2, hg]
  · show some (joinStrings (sylsFrom t (p + 1) (syl.max - 1).toNat)) = _
    rw [hw1]
  · show some (joinStrings (sylsFrom t (p + 1 + (syl.max - 1).toNat + 1) syl.max.toNat)) = _
    rw [hw2]

/-- C3 (amended): in the main.py variant the syllable count is drawn
independently for every word (each word gets its own `rand_in_range`
draw): for every valid word range admitting at least two words and every
valid syllable range with `min < max` and a positive maximum, some
random tape produces a title whose first word is a concatenation of `k₁`
copies of syllable "a" and whose second word is a concatenation of
`k₂ ≠ k₁` copies, i.e. two words of the same title with different
syllable counts.  In the scroll.py variant this fails: the count drawn
for the first word is reused while nonzero (see the counterexample). -/
theorem main_variant_resamples_syllables (syl wrds : MinMax)
    (h1 : syl.min < syl.max) (h2 : 1 ≤ syl.max) (h3 : 2 ≤ wrds.max)
    (h4 : wrds.min ≤ wrds.max) :
    ∃ (s : RState) (ws : List String) (s₁ : RState) (k₁ k₂ : Nat),
      generate_title syl wrds s = .ok (String.intercalate " " ws, s₁) ∧
      ws.get? 0 = some (joinStrings (List.replicate k₁ "a")) ∧
      ws.get? 1 = some (joinStrings (List.replicate k₂ "a")) ∧ k₁ ≠ k₂ := by
  have hkne : (syl.max - 1).toNat ≠ syl.max.toNat := by omega
  obtain ⟨m, hm⟩ : ∃ m, wrds.max.toNat = m + 2 := ⟨wrds.max.toNat - 2, by omega⟩
  by_cases hdeg : wrds.min = wrds.max
  · obtain ⟨ws, sF, hg, hg0, hg1⟩ :=
      genWordsMain_two_word_counts syl h1 h2 m
        (tapeDeg (syl.max - 1 - syl.min).toNat (syl.max - syl.min).toNat
          (syl.max - 1).toNat) 0
        (tapeDeg_at0 _ _ _)
        (fun j hj => tapeDeg_other _ _ _ _ (by omega) (by omega))
        (tapeDeg_hit _ _ _)
        (fun j hj => tapeDeg_other _ _ _ _ (by omega) (by omega))
    refine ⟨⟨tapeDeg (syl.max - 1 - syl.min).toNat (syl.max - syl.min).toNat
        (syl.max - 1).toNat, 0⟩,
      ws, sF, (syl.max - 1).toNat, syl.max.toNat, ?_, hg0, hg1, hkne⟩
    have hr := rand_in_range_deg wrds hdeg
      ⟨tapeDeg (syl.max - 1 - syl.min).toNat (syl.max - syl.min).toNat
        (syl.max - 1).toNat, 0⟩
    have hnn : wrds.min.toNat = m + 2 := by omega
    simp only [generate_title, hr, hnn, hg]
  · have hlt : wrds.min < wrds.max := by omega
    obtain ⟨ws, sF, hg, hg0, hg1⟩ :=
      genWordsMain_two_word_counts syl h1 h2 m
        (tapeDraw (wrds.max - wrds.min).toNat (syl.max - 1 - syl.min).toNat
          (syl.max - syl.min).toNat (syl.max - 1).toNat) 1
        (tapeDraw_at1 _ _ _ _)
        (fun j hj => tapeDraw_other _ _ _ _ _ (by omega) (by omega) (by omega))
        (tapeDraw_hit _ _ _ _)
        (fun j hj => tapeDraw_other _ _ _ _ _ (by omega) (by omega) (by omega))
    refine ⟨⟨tapeDraw (wrds.max - wrds.min).toNat (syl.max - 1 - syl.min).toNat
        (syl.max - syl.min).toNat (syl.max - 1).toNat, 0⟩,
      ws, sF, (syl.max - 1).toNat, syl.max.toNat, ?_, hg0, hg1, hkne⟩
    have hr : rand_in_range wrds
        ⟨tapeDraw (wrds.max - wrds.min).toNat (syl.max - 1 - syl.min).toNat
          (syl.max - syl.min).toNat (syl.max - 1).toNat, 0⟩ =
        .ok (wrds.max, ⟨tapeDraw (wrds.max - wrds.min).toNat (syl.max - 1 - syl.min).toNat
          (syl.max - syl.min).toNat (syl.max - 1).toNat, 1⟩) := by
      rw [rand_in_range_lt wrds hlt _ 0, tapeDraw_at0]
      have hWlt : (wrds.max - wrds.min).toNat < (wrds.max - wrds.min + 1).toNat := by
        omega
      rw [Nat.mod_eq_of_lt hWlt]
      have hval : (((wrds.max - wrds.min).toNat : Nat) : Int) + wrds.min = wrds.max := by
        omega
      rw [hval]
    simp only [generate_title, hr, hm, hg]

theorem main_variant_resamples_syllables_witness :
    ∃ (s : RState) (ws : List String) (s₁ : RState) (k₁ k₂ : Nat),
      generate_title ⟨1, 3⟩ ⟨2, 2⟩ s = .ok (String.intercalate " " ws, s₁) ∧
      ws.get? 0 = some (joinStrings (List.replicate k₁ "a")) ∧
      ws.get? 1 = some (joinStrings (List.replicate k₂ "a")) ∧ k₁ ≠ k₂ := by
  exact main_variant_resamples_syllables ⟨1, 3⟩ ⟨2, 2⟩ (by decide) (by decide) (by decide)
    (by decide)

/-- C4 (counterexample): with the legal equal-zero syllable bounds and
at least one word, the scroll.py variant raises a ValueError
(randbelow(0)) instead of returning a title; and with the legal word
range `[-1, -1]` the main.py variant returns a title of 0 words, and 0
is outside `[-1, -1]`. -/
theorem generate_title_edge_failures :
    generate_title_scroll 0 0 1 1 ⟨fun _ => 0, 0⟩ = .error .valueError ∧
    generate_title ⟨0, 0⟩ ⟨-1, -1⟩ ⟨fun _ => 0, 0⟩ = .ok ("", ⟨fun _ => 0, 0⟩) ∧
    ¬((-1 : Int) ≤ 0 ∧ (0 : Int) ≤ -1) := by
  exact ⟨rfl, rfl, by decide⟩

theorem scrollNWords_ok (min_w max_w : Int) (h : min_w ≤ max_w) (t : Nat → Nat) (p : Nat) :
    ∃ nw q, scrollNWords min_w max_w ⟨t, p⟩ = .ok (nw, ⟨t, q⟩) ∧
      min_w ≤ nw ∧ nw ≤ max_w := by
  by_cases hge : min_w ≥ max_w
  · exact ⟨min_w, p, by simp [scrollNWords, hge], le_refl _, by omega⟩
  · have hpos : (0 : Int) < (max_w - min_w) + 1 := by omega
    refine ⟨((t p % ((max_w - min_w) + 1).toNat : Nat) : Int) + min_w, p + 1, ?_, ?_, ?_⟩
    · simp [scrollNWords, hge, randbelow_pos _ hpos]
    · have := Int.natCast_nonneg (t p % ((max_w - min_w) + 1).toNat)
      omega
    · have hmod : t p % ((max_w - min_w) + 1).toNat < ((max_w - min_w) + 1).toNat :=
        Nat.mod_lt _ (by omega)
      have := Int.ofNat_lt.mpr hmod
      omega

/-- C4 (amended): for nonnegative valid ranges both `generate_title`
variants return, for every random tape, the sampled words joined by
single spaces, with the word count in `[wordsRange.min, wordsRange.max]`
and every word a concatenation of catalog syllables whose count lies in
`[syllablesRange.min, syllablesRange.max]`; a sampled word count of 0
gives the empty string.  The scroll.py variant additionally requires
`1 ≤ syllablesRange.max` (otherwise it raises, see the
counterexample). -/
theorem generate_title_in_range :
    (∀ (syl wrds : MinMax), 0 ≤ syl.min → syl.min ≤ syl.max →
      0 ≤ wrds.min → wrds.min ≤ wrds.max →
      ∀ s : RState, ∃ ws s₁,
        generate_title syl wrds s = .ok (String.intercalate " " ws, s₁) ∧
        wrds.min ≤ (ws.length : Int) ∧ (ws.length : Int) ≤ wrds.max ∧
        (∀ w ∈ ws, ∃ syls : List String, w = joinStrings syls ∧
          (∀ y ∈ syls, y ∈ SYLLABLES) ∧
          syl.min ≤ (syls.length : Int) ∧ (syls.length : Int) ≤ syl.max) ∧
        (ws.length = 0 → String.intercalate " " ws = "")) ∧
    (∀ min_s max_s min_w max_w : Int, 0 ≤ min_s → min_s ≤ max_s → 1 ≤ max_s →
      0 ≤ min_w → min_w ≤ max_w →
      ∀ s : RState, ∃ ws s₁,
        generate_title_scroll min_s max_s min_w max_w s =
          .ok (String.intercalate " " ws, s₁) ∧
        min_w ≤ (ws.length : Int) ∧ (ws.length : Int) ≤ max_w ∧
        (∀ w ∈ ws, ∃ syls : List String, w = joinStrings syls ∧
          (∀ y ∈ syls, y ∈ SYLLABLES) ∧
          min_s ≤ (syls.length : Int) ∧ (syls.length : Int) ≤ max_s) ∧
        (ws.length = 0 → String.intercalate " " ws = "")) := by
  constructor
  · intro syl wrds hs0 hs1 hw0 hw1 s
    obtain ⟨t, p⟩ := s
    obtain ⟨v, s₁, hr, hv1, hv2, ht⟩ := rand_in_range_ok wrds hw1 ⟨t, p⟩
    obtain ⟨t1, q⟩ := s₁
    replace ht : t = t1 := ht.symm
    subst ht
    obtain ⟨ws, s₂, hg, hl, _, hprop⟩ := genWordsMain_ok syl hs1 v.toNat [] ⟨t, q⟩
    refine ⟨ws, s₂, ?_, ?_, ?_, ?_, ?_⟩
    · simp only [generate_title, hr, hg, List.nil_append]
    · rw [hl]; omega
    · rw [hl]; omega
    · intro w hw
      obtain ⟨c, hc1, hc2, pp, hpp⟩ := hprop w hw
      refine ⟨sylsFrom t pp c.toNat, hpp, fun y hy => sylsFrom_mem _ _ _ y hy, ?_, ?_⟩
      · rw [sylsFrom_length]; omega
      · rw [sylsFrom_length]; omega
    · intro h0
      rw [List.length_eq_zero.mp h0]
      rfl
  · intro min_s max_s min_w max_w h0s h1s hmax1 h0w h1w s
    obtain ⟨t, p⟩ := s
    obtain ⟨nw, q, hnw, hnw1, hnw2⟩ := scrollNWords_ok min_w max_w h1w t p
    by_cases hms : max_s ≤ min_s
    · have heq : min_s = max_s := le_antisymm h1s hms
      have hc : min_s ≠ 0 := by omega
      obtain ⟨ws, s₁, hg, hl, _, hprop⟩ :=
        genWordsScroll_fixed min_s 0 min_s hc nw.toNat [] ⟨t, q⟩
      refine ⟨ws, s₁, ?_, ?_, ?_, ?_, ?_⟩
      · simp only [generate_title_scroll, hnw, if_pos hms, hg, List.nil_append]
      · rw [hl]; omega
      · rw [hl]; omega
      · intro w hw
        obtain ⟨pp, hpp⟩ := hprop w hw
        refine ⟨sylsFrom t pp min_s.toNat, hpp, fun y hy => sylsFrom_mem _ _ _ y hy, ?_, ?_⟩
        · rw [sylsFrom_length]; omega
        · rw [sylsFrom_length]; omega
      · intro h0
        rw [List.length_eq_zero.mp h0]
        rfl
    · have hlt : min_s < max_s := not_le.mp hms
      obtain ⟨ws, s₁, hg, hl, _, hprop⟩ :=
        genWordsScroll_fresh min_s max_s hlt nw.toNat none [] ⟨t, q⟩ (Or.inl rfl)
      refine ⟨ws, s₁, ?_, ?_, ?_, ?_, ?_⟩
      · simp only [generate_title_scroll, hnw, if_neg hms, hg, List.nil_append]
      · rw [hl]; omega
      · rw [hl]; omega
      · intro w hw
        obtain ⟨c, pp, hc1, hc2, hpp⟩ := hprop w hw
        refine ⟨sylsFrom t pp c.toNat, hpp, fun y hy => sylsFrom_mem _ _ _ y hy, ?_, ?_⟩
        · rw [sylsFrom_length]; omega
        · rw [sylsFrom_length]; omega
      · intro h0
        rw [List.length_eq_zero.mp h0]
        rfl

theorem generate_title_in_range_witness :
    (∃ ws s₁, generate_title ⟨1, 3⟩ ⟨2, 4⟩ ⟨fun _ => 0, 0⟩ =
      .ok (String.intercalate " " ws, s₁) ∧
      (2 : Int) ≤ (ws.length : Int) ∧ (ws.length : Int) ≤ 4 ∧
      (∀ w ∈ ws, ∃ syls : List String, w = joinStrings syls ∧
        (∀ y ∈ syls, y ∈ SYLLABLES) ∧
        (1 : Int) ≤ (syls.length : Int) ∧ (syls.length : Int) ≤ 3) ∧
      (ws.length = 0 → String.intercalate " " ws = "")) ∧
    (∃ ws s₁, generate_title_scroll 1 3 2 4 ⟨fun _ => 0, 0⟩ =
      .ok (String.intercalate " " ws, s₁) ∧
      (2 : Int) ≤ (ws.length : Int) ∧ (ws.length : Int) ≤ 4 ∧
      (∀ w ∈ ws, ∃ syls : List String, w = joinStrings syls ∧
        (∀ y ∈ syls, y ∈ SYLLABLES) ∧
        (1 : Int) ≤ (syls.length : Int) ∧ (syls.length : Int) ≤ 3) ∧
      (ws.length = 0 → String.intercalate " " ws = "")) := by
  exact ⟨generate_title_in_range.1 ⟨1, 3⟩ ⟨2, 4⟩ (by decide) (by decide) (by decide)
      (by decide) ⟨fun _ => 0, 0⟩,
    generate_title_in_range.2 1 3 2 4 (by decide) (by decide) (by decide) (by decide)
      (by decide) ⟨fun _ => 0, 0⟩⟩

end RogueScroll
